import Mathlib

/-!
Shallow embedding of `src/analyze_slices.py`, a diagnostic script that reads
natural-language-inference predictions (premise, hypothesis, gold label,
predicted label) and reports accuracy broken down by linguistic slices
(negation cues, hypothesis length, premise/hypothesis lexical overlap),
plus a confusion-matrix tally.

Modelling conventions:
* Python strings are Lean `String`s, worked on as `List Char`.
* `str.lower()` is modelled by `Char.toLower` on every character (the ASCII
  fragment; all regex alternatives and character classes in the source are
  ASCII, and non-ASCII characters fall outside every class involved).
* `WORD_RE = [A-Za-z0-9']+` and its `findall` become `tokenize` below,
  returning the maximal runs of characters of that class.
* The word-character class of the regex metacharacter `\b` is modelled on
  its ASCII fragment `[A-Za-z0-9_]`.
* Python `set`s of tokens become `Finset (List Char)`; float division in
  `jaccard_overlap` becomes exact division in `ℚ` (the numerator and
  denominator are small set cardinalities, and the constants 0.5 and 0.2 of
  the source are threshold comparisons on that quotient).
* `collections.Counter` becomes a total function into `ℕ` (absent key = 0),
  and `defaultdict(list)` a total function into `List`.
* A JSON row becomes the structure `Row` with `Option` fields; `r.get(k, d)`
  is `Option.getD`.
-/

namespace AnalyzeSlices

/-- The apostrophe character (written via its code point). -/
def apos : Char := Char.ofNat 39

/-- Character class of `WORD_RE = [A-Za-z0-9']+`. -/
def isTokChar (c : Char) : Bool := c.isAlphanum || c == apos

/-- ASCII fragment of the regex word-character class `\w = [A-Za-z0-9_]`,
used by the `\b` anchors of `NEG_RE`. -/
def isWordChar (c : Char) : Bool := c.isAlphanum || c == '_'

/-- `text.lower()` as a character list (ASCII case folding). -/
def lowerStr (s : String) : List Char := s.data.map Char.toLower

/-- Accumulating scanner behind `tokenize`: collects maximal runs of
`WORD_RE` characters.  `cur` is the (reversed) run in progress. -/
def tokenizeAux : List Char → List Char → List (List Char)
  | [], cur => if cur.isEmpty then [] else [cur.reverse]
  | c :: cs, cur =>
    if isTokChar c then tokenizeAux cs (c :: cur)
    else if cur.isEmpty then tokenizeAux cs []
    else cur.reverse :: tokenizeAux cs []

/-- `tokenize(text) = WORD_RE.findall((text or "").lower())`:
the maximal runs of `[A-Za-z0-9']` characters of the lowered text. -/
def tokenize (text : String) : List (List Char) :=
  tokenizeAux (lowerStr text) []

/-- The eighteen alternatives of `NEG_RE`, lower-case. -/
def negTokens : List (List Char) :=
  [ "no".data, "not".data, "never".data, "none".data, "nothing".data,
    "nobody".data, "noone".data,
    "can".data ++ [apos] ++ "t".data, "cannot".data,
    "won".data ++ [apos] ++ "t".data,
    "don".data ++ [apos] ++ "t".data,
    "doesn".data ++ [apos] ++ "t".data,
    "didn".data ++ [apos] ++ "t".data,
    "isn".data ++ [apos] ++ "t".data,
    "aren".data ++ [apos] ++ "t".data,
    "wasn".data ++ [apos] ++ "t".data,
    "weren".data ++ [apos] ++ "t".data,
    "without".data ]

/-- Whether position `i` of `l` holds a word character (out of range: no).
This is how `\b` sees the neighbourhood of a match. -/
def wordCharAt (l : List Char) (i : ℕ) : Bool :=
  match l[i]? with
  | some c => isWordChar c
  | none => false

/-- `tok` matches at position `i` of `l` with a word boundary on both
sides.  Every alternative of `NEG_RE` begins and ends with a letter, so
`\b` there amounts to: the preceding and following characters (when they
exist) are not word characters. -/
def matchesWholeWordAt (l tok : List Char) (i : ℕ) : Bool :=
  ((l.drop i).take tok.length == tok)
    && (i == 0 || !wordCharAt l (i - 1))
    && !wordCharAt l (i + tok.length)

/-- `has_negation(text) = bool(NEG_RE.search(text or ""))`: some alternative
of `NEG_RE` matches at some position of the text, case-insensitively, with
word boundaries on both sides. -/
def has_negation (text : String) : Bool :=
  let l := lowerStr text
  (List.range l.length).any fun i =>
    negTokens.any fun tok => matchesWholeWordAt l tok i

/-- `length_bucket` of the source: bucket by `len(tokenize(text))`. -/
def length_bucket (text : String) : String :=
  let n := (tokenize text).length
  if n ≤ 5 then "short(<=5)"
  else if n ≤ 15 then "medium(6-15)"
  else "long(>15)"

/-- The token set `set(tokenize(t))`. -/
def tokenSet (t : String) : Finset (List Char) := (tokenize t).toFinset

/-- `jaccard_overlap` of the source: 0 when both token sets are empty,
otherwise |sa ∩ sb| / |sa ∪ sb|. -/
def jaccard_overlap (a b : String) : ℚ :=
  let sa := tokenSet a
  let sb := tokenSet b
  if sa = ∅ ∧ sb = ∅ then 0
  else ((sa ∩ sb).card : ℚ) / ((sa ∪ sb).card : ℚ)

/-- `overlap_bucket` of the source: bucket the Jaccard overlap of premise
and hypothesis. -/
def overlap_bucket (premise hypothesis : String) : String :=
  let j := jaccard_overlap premise hypothesis
  if j ≥ 0.5 then "high(>=0.5)"
  else if j ≥ 0.2 then "mid(0.2-0.5)"
  else "low(<0.2)"

/-- One input line (a JSON object).  `none` models an absent field. -/
structure Row where
  premise : Option String
  hypothesis : Option String
  label : Option Int
  predicted_label : Option Int

/-- The mutable state of the `main` loop: overall counts, per-slice
counters (`Counter` = total function, absent key 0), the stored error
examples (`defaultdict(list)`), and the confusion counter. -/
structure Agg where
  total : ℕ
  correct : ℕ
  slice_tot : String → ℕ
  slice_cor : String → ℕ
  slice_errs : String → List Row
  conf : Int × Int → ℕ

/-- The state before the loop: everything zero / empty. -/
def initAgg : Agg :=
  { total := 0, correct := 0, slice_tot := fun _ => 0, slice_cor := fun _ => 0,
    slice_errs := fun _ => [], conf := fun _ => 0 }

/-- `counter[k] += 1` on a `Counter` modelled as a total function. -/
def bump {α : Type} [DecidableEq α] (f : α → ℕ) (k : α) : α → ℕ :=
  fun x => if x = k then f x + 1 else f x

/-- Slice key `NEG::…` of a row (the negation test runs on the hypothesis,
with `r.get("hypothesis", "")`). -/
def negKey (r : Row) : String :=
  "NEG::" ++ (if has_negation (r.hypothesis.getD "") then "negation" else "no_negation")

/-- Slice key `LEN::…` of a row (length of the hypothesis). -/
def lenKey (r : Row) : String :=
  "LEN::" ++ length_bucket (r.hypothesis.getD "")

/-- Slice key `OVL::…` of a row (overlap of premise and hypothesis). -/
def ovlKey (r : Row) : String :=
  "OVL::" ++ overlap_bucket (r.premise.getD "") (r.hypothesis.getD "")

/-- The three slice keys built for a scored row (the `slices` list). -/
def sliceKeys (r : Row) : List String := [negKey r, lenKey r, ovlKey r]

/-- Body of the `for s in slices` loop: update the per-slice counters for
key `s`, and store the row as an error example when it is incorrect,
examples were requested and this slice's store is not yet full. -/
def sliceUpd (showEx : Bool) (cap : ℕ) (isCorrect : Bool) (r : Row)
    (acc : Agg) (s : String) : Agg :=
  { acc with
    slice_tot := bump acc.slice_tot s,
    slice_cor := fun k =>
      if k = s then acc.slice_cor k + (if isCorrect then 1 else 0)
      else acc.slice_cor k,
    slice_errs := fun k =>
      if k = s ∧ !isCorrect ∧ showEx ∧ (acc.slice_errs s).length < cap
      then acc.slice_errs k ++ [r] else acc.slice_errs k }

/-- One iteration of the `for r in rows` loop of `main`.  `showEx` and
`cap` are `args.show_examples` and `args.examples_per_slice`.  A row
missing either label is skipped; otherwise the overall counters and the
confusion counter are updated, and then each of the three slice keys has
its counters updated. -/
def step (showEx : Bool) (cap : ℕ) (st : Agg) (r : Row) : Agg :=
  match r.label, r.predicted_label with
  | some gold, some pred =>
    let isCorrect : Bool := gold == pred
    let st1 : Agg :=
      { st with
        total := st.total + 1,
        correct := st.correct + (if isCorrect then 1 else 0),
        conf := bump st.conf (gold, pred) }
    (sliceKeys r).foldl (sliceUpd showEx cap isCorrect r) st1
  | _, _ => st

/-- The whole loop of `main` over the parsed rows. -/
def processRows (showEx : Bool) (cap : ℕ) (rows : List Row) : Agg :=
  rows.foldl (step showEx cap) initAgg

/-- A row is scored when both its gold and its predicted label are present. -/
def scored (r : Row) : Bool := r.label.isSome && r.predicted_label.isSome

/-- The (gold, predicted) pairs of the scored rows, in order. -/
def scoredPairs (rows : List Row) : List (Int × Int) :=
  rows.filterMap fun r =>
    match r.label, r.predicted_label with
    | some g, some p => some (g, p)
    | _, _ => none

/-- Line 116 of the source computes `correct/total`.  `none` marks the
division by zero that `total = 0` provokes (Python: `ZeroDivisionError`). -/
def overallAccuracy (st : Agg) : Option ℚ :=
  if st.total = 0 then none else some ((st.correct : ℚ) / (st.total : ℚ))

/-- The two bucket keys of the negation dimension. -/
def negBuckets : List String := ["NEG::negation", "NEG::no_negation"]

/-- The three bucket keys of the length dimension. -/
def lenBuckets : List String := ["LEN::short(<=5)", "LEN::medium(6-15)", "LEN::long(>15)"]

/-- The three bucket keys of the overlap dimension. -/
def ovlBuckets : List String := ["OVL::high(>=0.5)", "OVL::mid(0.2-0.5)", "OVL::low(<0.2)"]

/-- Sum of a counter over a list of keys. -/
def sumOver (f : String → ℕ) (bs : List String) : ℕ := (bs.map f).sum

/-- Spec-side notion for the negation claim: `tok` occurs in the lowered
text as a separate whole word, i.e. the text splits as `pre ++ tok ++ post`
where the character adjacent to the occurrence on either side, when there
is one, is not a word character. -/
def appearsAsWholeWord (tok : List Char) (text : String) : Prop :=
  ∃ pre post : List Char, lowerStr text = pre ++ tok ++ post
    ∧ (∀ c, pre.getLast? = some c → isWordChar c = false)
    ∧ (∀ c, post.head? = some c → isWordChar c = false)

lemma wordCharAt_some {l : List Char} {i : ℕ} {c : Char} (h : l[i]? = some c) :
    wordCharAt l i = isWordChar c := by
  unfold wordCharAt
  rw [h]

lemma wordCharAt_none {l : List Char} {i : ℕ} (h : l[i]? = none) :
    wordCharAt l i = false := by
  unfold wordCharAt
  rw [h]

/-- A whole-word match of a non-empty token at some position of `l` is the
same thing as a decomposition `l = pre ++ tok ++ post` with non-word
characters (or nothing) adjacent on both sides. -/
lemma exists_matchesWholeWordAt_iff (l tok : List Char) (htok : tok ≠ []) :
    (∃ i, i < l.length ∧ matchesWholeWordAt l tok i = true) ↔
      (∃ pre post : List Char, l = pre ++ tok ++ post
        ∧ (∀ c, pre.getLast? = some c → isWordChar c = false)
        ∧ (∀ c, post.head? = some c → isWordChar c = false)) := by
  have htoklen : 0 < tok.length := List.length_pos.mpr htok
  constructor
  · rintro ⟨i, hi, hm⟩
    rw [matchesWholeWordAt, Bool.and_eq_true, Bool.and_eq_true] at hm
    obtain ⟨⟨hm1, hm2⟩, hm3⟩ := hm
    have htake : (l.drop i).take tok.length = tok := eq_of_beq hm1
    refine ⟨l.take i, l.drop (i + tok.length), ?_, ?_, ?_⟩
    · conv_lhs => rw [← List.take_append_drop i l]
      rw [List.append_assoc]
      congr 1
      conv_lhs => rw [← List.take_append_drop tok.length (l.drop i)]
      rw [htake, List.drop_drop]
    · intro c hc
      have hile : i ≤ l.length := le_of_lt hi
      have hlenpre : (l.take i).length = i := by
        rw [List.length_take]; omega
      rcases Nat.eq_zero_or_pos i with h0 | h0
      · subst h0; simp at hc
      · have hgl : (l.take i).getLast? = (l.take i)[i - 1]? := by
          rw [List.getLast?_eq_getElem?, hlenpre]
        have hup : l[i - 1]? = (l.take i)[i - 1]? := by
          conv_lhs => rw [← List.take_append_drop i l]
          exact List.getElem?_append_left (by omega)
        have hwc : wordCharAt l (i - 1) = isWordChar c :=
          wordCharAt_some (hup.trans (hgl.symm.trans hc))
        have : ¬ (i == 0) = true := by simp; omega
        rw [Bool.or_eq_true] at hm2
        rcases hm2 with hm2 | hm2
        · exact absurd hm2 this
        · rw [Bool.not_eq_true', hwc] at hm2
          exact hm2
    · intro c hc
      have hlenpt : (l.take i ++ tok).length = i + tok.length := by
        rw [List.length_append, List.length_take]; omega
      have hsplit2 : l = (l.take i ++ tok) ++ l.drop (i + tok.length) := by
        conv_lhs => rw [← List.take_append_drop i l]
        rw [List.append_assoc]
        congr 1
        conv_lhs => rw [← List.take_append_drop tok.length (l.drop i)]
        rw [htake, List.drop_drop]
      have hup : l[i + tok.length]? = (l.drop (i + tok.length)).head? := by
        conv_lhs => rw [hsplit2]
        rw [List.getElem?_append_right (by omega), List.head?_eq_getElem?]
        congr 1
        omega
      have hwc : wordCharAt l (i + tok.length) = isWordChar c :=
        wordCharAt_some (hup.trans hc)
      rw [Bool.not_eq_true', hwc] at hm3
      exact hm3
  · rintro ⟨pre, post, hsplit, hpre, hpost⟩
    have hlen : l.length = pre.length + tok.length + post.length := by
      rw [hsplit]
      simp only [List.length_append]
    refine ⟨pre.length, ?_, ?_⟩
    · omega
    rw [matchesWholeWordAt, Bool.and_eq_true, Bool.and_eq_true]
    have hsplit2 : l = (pre ++ tok) ++ post := by
      rw [hsplit, List.append_assoc]
    refine ⟨⟨?_, ?_⟩, ?_⟩
    · rw [hsplit, List.append_assoc, List.drop_left, List.take_left]
      exact beq_self_eq_true tok
    · rcases Nat.eq_zero_or_pos pre.length with h0 | h0
      · simp [h0]
      · have hne : pre ≠ [] := by
          intro h; rw [h] at h0; simp at h0
        obtain ⟨c, hc⟩ := Option.isSome_iff_exists.mp
          (by rw [List.getLast?_isSome]; exact hne)
        have hlt : pre.length - 1 < pre.length := by omega
        have hup : l[pre.length - 1]? = pre[pre.length - 1]? := by
          conv_lhs => rw [hsplit, List.append_assoc]
          exact @List.getElem?_append_left Char pre (tok ++ post) (pre.length - 1) hlt
        have hgl : pre.getLast? = pre[pre.length - 1]? := List.getLast?_eq_getElem? pre
        have hwc : wordCharAt l (pre.length - 1) = isWordChar c :=
          wordCharAt_some (hup.trans (hgl.symm.trans hc))
        rw [hwc, hpre c hc]
        simp
    · have hup : l[pre.length + tok.length]? = post.head? := by
        conv_lhs => rw [hsplit2]
        rw [List.getElem?_append_right (by simp [List.length_append]),
          List.head?_eq_getElem?]
        congr 1
        simp [List.length_append]
      rw [Bool.not_eq_true']
      cases hhd : post.head? with
      | none => exact wordCharAt_none (hup.trans hhd)
      | some c => exact (wordCharAt_some (hup.trans hhd)).trans (hpost c hhd)

lemma foldl_sliceUpd_total (e : Bool) (cap : ℕ) (b : Bool) (r : Row)
    (ks : List String) (acc : Agg) :
    (ks.foldl (sliceUpd e cap b r) acc).total = acc.total := by
  induction ks generalizing acc with
  | nil => rfl
  | cons k ks ih => rw [List.foldl_cons, ih]; rfl

lemma foldl_sliceUpd_correct (e : Bool) (cap : ℕ) (b : Bool) (r : Row)
    (ks : List String) (acc : Agg) :
    (ks.foldl (sliceUpd e cap b r) acc).correct = acc.correct := by
  induction ks generalizing acc with
  | nil => rfl
  | cons k ks ih => rw [List.foldl_cons, ih]; rfl

lemma foldl_sliceUpd_conf (e : Bool) (cap : ℕ) (b : Bool) (r : Row)
    (ks : List String) (acc : Agg) :
    (ks.foldl (sliceUpd e cap b r) acc).conf = acc.conf := by
  induction ks generalizing acc with
  | nil => rfl
  | cons k ks ih => rw [List.foldl_cons, ih]; rfl

lemma foldl_sliceUpd_slice_tot (e : Bool) (cap : ℕ) (b : Bool) (r : Row)
    (ks : List String) (acc : Agg) :
    (ks.foldl (sliceUpd e cap b r) acc).slice_tot = ks.foldl bump acc.slice_tot := by
  induction ks generalizing acc with
  | nil => rfl
  | cons k ks ih => rw [List.foldl_cons, ih]; rfl

/-- The per-slice correct counters evolve independently of the error store:
`slice_cor` of the fold is a fold of its own update. -/
lemma foldl_sliceUpd_slice_cor (e : Bool) (cap : ℕ) (b : Bool) (r : Row)
    (ks : List String) (acc : Agg) :
    (ks.foldl (sliceUpd e cap b r) acc).slice_cor
      = ks.foldl (fun f s => fun k =>
          if k = s then f k + (if b then 1 else 0) else f k) acc.slice_cor := by
  induction ks generalizing acc with
  | nil => rfl
  | cons k ks ih => rw [List.foldl_cons, ih]; rfl

/-- A row missing either label leaves the whole loop state untouched. -/
lemma step_unscored (e : Bool) (cap : ℕ) (st : Agg) (r : Row)
    (h : r.label = none ∨ r.predicted_label = none) :
    step e cap st r = st := by
  cases hl : r.label <;> cases hp : r.predicted_label <;>
    simp_all [step]

/-- The counter components of one scored iteration. -/
lemma step_scored (e : Bool) (cap : ℕ) (st : Agg) (r : Row) (g p : Int)
    (hg : r.label = some g) (hp : r.predicted_label = some p) :
    (step e cap st r).total = st.total + 1
    ∧ (step e cap st r).correct = st.correct + (if g = p then 1 else 0)
    ∧ (step e cap st r).conf = bump st.conf (g, p)
    ∧ (step e cap st r).slice_tot
        = bump (bump (bump st.slice_tot (negKey r)) (lenKey r)) (ovlKey r) := by
  rw [step]
  rw [hg, hp]
  dsimp only
  refine ⟨?_, ?_, ?_, ?_⟩
  · rw [foldl_sliceUpd_total]
  · rw [foldl_sliceUpd_correct]
    simp [beq_iff_eq]
  · rw [foldl_sliceUpd_conf]
  · rw [foldl_sliceUpd_slice_tot, sliceKeys]
    rfl

lemma sumOver_bump_not_mem (f : String → ℕ) {bs : List String} {k : String}
    (hk : k ∉ bs) : sumOver (bump f k) bs = sumOver f bs := by
  induction bs with
  | nil => rfl
  | cons b bs ih =>
    rw [List.mem_cons, not_or] at hk
    have hbk : b ≠ k := fun h => hk.1 h.symm
    simp only [sumOver, List.map_cons, List.sum_cons] at *
    rw [ih hk.2]
    congr 1
    simp [bump, hbk]

lemma sumOver_bump_mem (f : String → ℕ) {bs : List String} {k : String}
    (hk : k ∈ bs) (hnd : bs.Nodup) :
    sumOver (bump f k) bs = sumOver f bs + 1 := by
  induction bs with
  | nil => cases hk
  | cons b bs ih =>
    rw [List.nodup_cons] at hnd
    simp only [sumOver, List.map_cons, List.sum_cons]
    rcases List.mem_cons.mp hk with h | h
    · subst h
      have htail := sumOver_bump_not_mem f hnd.1
      simp only [sumOver] at htail
      rw [htail]
      simp [bump]
      omega
    · have hbk : b ≠ k := fun hh => hnd.1 (hh ▸ h)
      have htail := ih h hnd.2
      simp only [sumOver] at htail
      rw [htail]
      simp [bump, hbk]
      omega

lemma negKey_mem (r : Row) : negKey r ∈ negBuckets := by
  rw [negKey]
  by_cases h : has_negation (r.hypothesis.getD "") <;> simp [h] <;> decide

lemma length_bucket_cases (t : String) :
    length_bucket t = "short(<=5)" ∨ length_bucket t = "medium(6-15)"
      ∨ length_bucket t = "long(>15)" := by
  unfold length_bucket
  dsimp only
  split_ifs <;> simp

lemma overlap_bucket_cases (a b : String) :
    overlap_bucket a b = "high(>=0.5)" ∨ overlap_bucket a b = "mid(0.2-0.5)"
      ∨ overlap_bucket a b = "low(<0.2)" := by
  unfold overlap_bucket
  dsimp only
  split_ifs <;> simp

lemma lenKey_mem (r : Row) : lenKey r ∈ lenBuckets := by
  rw [lenKey]
  rcases length_bucket_cases (r.hypothesis.getD "") with h | h | h <;>
    rw [h] <;> decide

lemma ovlKey_mem (r : Row) : ovlKey r ∈ ovlBuckets := by
  rw [ovlKey]
  rcases overlap_bucket_cases (r.premise.getD "") (r.hypothesis.getD "") with h | h | h <;>
    rw [h] <;> decide

lemma neg_not_mem_of_mem_len {k : String} (h : k ∈ lenBuckets) : k ∉ negBuckets := by
  fin_cases h <;> decide

lemma neg_not_mem_of_mem_ovl {k : String} (h : k ∈ ovlBuckets) : k ∉ negBuckets := by
  fin_cases h <;> decide

lemma len_not_mem_of_mem_neg {k : String} (h : k ∈ negBuckets) : k ∉ lenBuckets := by
  fin_cases h <;> decide

lemma len_not_mem_of_mem_ovl {k : String} (h : k ∈ ovlBuckets) : k ∉ lenBuckets := by
  fin_cases h <;> decide

lemma ovl_not_mem_of_mem_neg {k : String} (h : k ∈ negBuckets) : k ∉ ovlBuckets := by
  fin_cases h <;> decide

lemma ovl_not_mem_of_mem_len {k : String} (h : k ∈ lenBuckets) : k ∉ ovlBuckets := by
  fin_cases h <;> decide

/-- C4: `jaccard_overlap` is symmetric; it is 1 when the two token sets are
equal and non-empty; it is 0 when they are disjoint, including when both
are empty. -/
theorem jaccard_overlap_props (a b : String) :
    jaccard_overlap a b = jaccard_overlap b a
    ∧ (tokenSet a = tokenSet b → tokenSet a ≠ ∅ → jaccard_overlap a b = 1)
    ∧ (tokenSet a ∩ tokenSet b = ∅ → jaccard_overlap a b = 0) := by
  refine ⟨?_, ?_, ?_⟩
  · by_cases h : tokenSet a = ∅ ∧ tokenSet b = ∅
    · rw [jaccard_overlap, jaccard_overlap, if_pos h, if_pos ⟨h.2, h.1⟩]
    · rw [jaccard_overlap, jaccard_overlap, if_neg h,
        if_neg (fun hc => h ⟨hc.2, hc.1⟩), Finset.inter_comm, Finset.union_comm]
  · intro heq hne
    have h : ¬ (tokenSet a = ∅ ∧ tokenSet b = ∅) := fun hc => hne hc.1
    rw [jaccard_overlap, if_neg h, heq, Finset.inter_self, Finset.union_self]
    have hcard : (tokenSet b).card ≠ 0 := by
      rw [Finset.card_ne_zero]
      rw [← Finset.nonempty_iff_ne_empty, heq] at hne
      exact hne
    rw [div_self]
    exact_mod_cast hcard
  · intro hdisj
    by_cases h : tokenSet a = ∅ ∧ tokenSet b = ∅
    · rw [jaccard_overlap, if_pos h]
    · rw [jaccard_overlap, if_neg h, hdisj, Finset.card_empty, Nat.cast_zero,
        zero_div]

/-- C5: `has_negation` returns true exactly when one of the fixed negation
tokens appears in the string as a separate whole word, matched
case-insensitively. -/
theorem has_negation_iff_whole_word (text : String) :
    has_negation text = true ↔ ∃ tok ∈ negTokens, appearsAsWholeWord tok text := by
  have hne : ∀ tok ∈ negTokens, tok ≠ [] := by decide
  simp only [has_negation]
  rw [List.any_eq_true]
  constructor
  · rintro ⟨i, hi, h⟩
    rw [List.any_eq_true] at h
    obtain ⟨tok, htok, hm⟩ := h
    exact ⟨tok, htok,
      (exists_matchesWholeWordAt_iff (lowerStr text) tok (hne tok htok)).mp
        ⟨i, List.mem_range.mp hi, hm⟩⟩
  · rintro ⟨tok, htok, happ⟩
    obtain ⟨i, hlt, hm⟩ :=
      (exists_matchesWholeWordAt_iff (lowerStr text) tok (hne tok htok)).mpr happ
    exact ⟨i, List.mem_range.mpr hlt, List.any_eq_true.mpr ⟨tok, htok, hm⟩⟩

/-- C6: `length_bucket` lands in exactly one of the three tiers, decided by
the token count of the text: short iff at most 5, medium iff between 6 and
15, long iff more than 15. -/
theorem length_bucket_tiers (text : String) :
    (length_bucket text = "short(<=5)" ↔ (tokenize text).length ≤ 5)
    ∧ (length_bucket text = "medium(6-15)" ↔
        6 ≤ (tokenize text).length ∧ (tokenize text).length ≤ 15)
    ∧ (length_bucket text = "long(>15)" ↔ 15 < (tokenize text).length) := by
  unfold length_bucket
  dsimp only
  split_ifs with h1 h2 <;> refine ⟨?_, ?_, ?_⟩ <;> simp <;> omega

/-- C7: `overlap_bucket` lands in exactly one of the three tiers, decided
by the Jaccard overlap `j` of premise and hypothesis: high iff `j ≥ 0.5`,
mid iff `0.2 ≤ j < 0.5`, low iff `j < 0.2`; two empty token sets give
`j = 0` and the low tier. -/
theorem overlap_bucket_tiers (premise hypothesis : String) :
    (overlap_bucket premise hypothesis = "high(>=0.5)" ↔
        0.5 ≤ jaccard_overlap premise hypothesis)
    ∧ (overlap_bucket premise hypothesis = "mid(0.2-0.5)" ↔
        0.2 ≤ jaccard_overlap premise hypothesis
          ∧ jaccard_overlap premise hypothesis < 0.5)
    ∧ (overlap_bucket premise hypothesis = "low(<0.2)" ↔
        jaccard_overlap premise hypothesis < 0.2)
    ∧ (tokenSet premise = ∅ → tokenSet hypothesis = ∅ →
        jaccard_overlap premise hypothesis = 0
          ∧ overlap_bucket premise hypothesis = "low(<0.2)") := by
  have hempty : tokenSet premise = ∅ → tokenSet hypothesis = ∅ →
      jaccard_overlap premise hypothesis = 0 := by
    intro hp hh
    rw [jaccard_overlap, if_pos ⟨hp, hh⟩]
  unfold overlap_bucket
  dsimp only
  split_ifs with h1 h2
  · rw [ge_iff_le] at h1
    refine ⟨iff_of_true rfl h1,
      iff_of_false (by decide) (fun hc => absurd h1 (not_le.mpr hc.2)),
      iff_of_false (by decide) (not_lt.mpr (le_trans (by norm_num) h1)), ?_⟩
    intro hp hh
    rw [hempty hp hh] at h1
    norm_num at h1
  · rw [ge_iff_le] at h2
    rw [ge_iff_le, not_le] at h1
    refine ⟨iff_of_false (by decide) (not_le.mpr h1),
      iff_of_true rfl ⟨h2, h1⟩,
      iff_of_false (by decide) (not_lt.mpr h2), ?_⟩
    intro hp hh
    rw [hempty hp hh] at h2
    norm_num at h2
  · rw [ge_iff_le, not_le] at h1 h2
    refine ⟨iff_of_false (by decide) (not_le.mpr h1),
      iff_of_false (by decide) (fun hc => absurd hc.1 (not_le.mpr h2)),
      iff_of_true rfl h2, ?_⟩
    intro hp hh
    exact ⟨hempty hp hh, rfl⟩

/-- C3: a row missing its gold label or its predicted label contributes to
nothing at all: processing a list with such a row inserted anywhere gives
exactly the same final state as processing the list without it. -/
theorem processRows_skips_unscored (e : Bool) (cap : ℕ)
    (rows₁ rows₂ : List Row) (r : Row)
    (h : r.label = none ∨ r.predicted_label = none) :
    processRows e cap (rows₁ ++ r :: rows₂) = processRows e cap (rows₁ ++ rows₂) := by
  unfold processRows
  rw [List.foldl_append, List.foldl_append, List.foldl_cons,
    step_unscored e cap _ r h]

theorem processRows_skips_unscored_witness :
    processRows false 3
        [⟨some "A man sleeps", some "A man is asleep", none, some 0⟩]
      = processRows false 3 [] :=
  processRows_skips_unscored false 3 [] []
    ⟨some "A man sleeps", some "A man is asleep", none, some 0⟩ (Or.inl rfl)

lemma step_dim_sums (e : Bool) (cap : ℕ) (st : Agg) (r : Row)
    (h1 : sumOver st.slice_tot negBuckets = st.total)
    (h2 : sumOver st.slice_tot lenBuckets = st.total)
    (h3 : sumOver st.slice_tot ovlBuckets = st.total) :
    sumOver (step e cap st r).slice_tot negBuckets = (step e cap st r).total
    ∧ sumOver (step e cap st r).slice_tot lenBuckets = (step e cap st r).total
    ∧ sumOver (step e cap st r).slice_tot ovlBuckets = (step e cap st r).total := by
  cases hl : r.label with
  | none => rw [step_unscored e cap st r (Or.inl hl)]; exact ⟨h1, h2, h3⟩
  | some g =>
    cases hp : r.predicted_label with
    | none => rw [step_unscored e cap st r (Or.inr hp)]; exact ⟨h1, h2, h3⟩
    | some p =>
      obtain ⟨ht, _, _, hs⟩ := step_scored e cap st r g p hl hp
      rw [ht, hs]
      refine ⟨?_, ?_, ?_⟩
      · rw [sumOver_bump_not_mem _ (neg_not_mem_of_mem_ovl (ovlKey_mem r)),
          sumOver_bump_not_mem _ (neg_not_mem_of_mem_len (lenKey_mem r)),
          sumOver_bump_mem _ (negKey_mem r) (by decide), h1]
      · rw [sumOver_bump_not_mem _ (len_not_mem_of_mem_ovl (ovlKey_mem r)),
          sumOver_bump_mem _ (lenKey_mem r) (by decide),
          sumOver_bump_not_mem _ (len_not_mem_of_mem_neg (negKey_mem r)), h2]
      · rw [sumOver_bump_mem _ (ovlKey_mem r) (by decide),
          sumOver_bump_not_mem _ (ovl_not_mem_of_mem_len (lenKey_mem r)),
          sumOver_bump_not_mem _ (ovl_not_mem_of_mem_neg (negKey_mem r)), h3]

/-- C8: after processing any input, within each of the three dimensions
(negation, length, overlap) the per-bucket totals sum to the number of
scored examples. -/
theorem processRows_bucket_sums (e : Bool) (cap : ℕ) (rows : List Row) :
    sumOver (processRows e cap rows).slice_tot negBuckets
        = (processRows e cap rows).total
    ∧ sumOver (processRows e cap rows).slice_tot lenBuckets
        = (processRows e cap rows).total
    ∧ sumOver (processRows e cap rows).slice_tot ovlBuckets
        = (processRows e cap rows).total := by
  suffices h : ∀ st : Agg,
      sumOver st.slice_tot negBuckets = st.total →
      sumOver st.slice_tot lenBuckets = st.total →
      sumOver st.slice_tot ovlBuckets = st.total →
        sumOver (rows.foldl (step e cap) st).slice_tot negBuckets
            = (rows.foldl (step e cap) st).total
        ∧ sumOver (rows.foldl (step e cap) st).slice_tot lenBuckets
            = (rows.foldl (step e cap) st).total
        ∧ sumOver (rows.foldl (step e cap) st).slice_tot ovlBuckets
            = (rows.foldl (step e cap) st).total by
    exact h initAgg rfl rfl rfl
  induction rows with
  | nil => intro st h1 h2 h3; exact ⟨h1, h2, h3⟩
  | cons r rows ih =>
    intro st h1 h2 h3
    rw [List.foldl_cons]
    obtain ⟨g1, g2, g3⟩ := step_dim_sums e cap st r h1 h2 h3
    exact ih (step e cap st r) g1 g2 g3

lemma foldl_conf (e : Bool) (cap : ℕ) (rows : List Row) (st : Agg)
    (q : Int × Int) :
    (rows.foldl (step e cap) st).conf q = st.conf q + (scoredPairs rows).count q := by
  induction rows generalizing st with
  | nil => simp [scoredPairs]
  | cons r rows ih =>
    rw [List.foldl_cons, ih]
    cases hl : r.label with
    | none =>
      rw [step_unscored e cap st r (Or.inl hl)]
      simp [scoredPairs, List.filterMap_cons, hl]
    | some g =>
      cases hp : r.predicted_label with
      | none =>
        rw [step_unscored e cap st r (Or.inr hp)]
        simp [scoredPairs, List.filterMap_cons, hl, hp]
      | some p =>
        obtain ⟨_, _, hconf, _⟩ := step_scored e cap st r g p hl hp
        rw [hconf]
        simp only [scoredPairs, List.filterMap_cons, hl, hp]
        rw [List.count_cons]
        by_cases hq : q = (g, p)
        · subst hq
          simp [bump]
          omega
        · simp [bump, hq]
          exact fun h => hq h.symm

lemma foldl_total (e : Bool) (cap : ℕ) (rows : List Row) (st : Agg) :
    (rows.foldl (step e cap) st).total = st.total + (scoredPairs rows).length := by
  induction rows generalizing st with
  | nil => simp [scoredPairs]
  | cons r rows ih =>
    rw [List.foldl_cons, ih]
    cases hl : r.label with
    | none =>
      rw [step_unscored e cap st r (Or.inl hl)]
      simp [scoredPairs, List.filterMap_cons, hl]
    | some g =>
      cases hp : r.predicted_label with
      | none =>
        rw [step_unscored e cap st r (Or.inr hp)]
        simp [scoredPairs, List.filterMap_cons, hl, hp]
      | some p =>
        obtain ⟨ht, _, _, _⟩ := step_scored e cap st r g p hl hp
        rw [ht]
        simp only [scoredPairs, List.filterMap_cons, hl, hp]
        rw [List.length_cons]
        omega

lemma pair_beq_decide (x y : Int × Int) : (x == y) = decide (x = y) := by
  by_cases h : x = y
  · subst h
    simp
  · simp [h]

/-- The counts of the distinct elements of a list of pairs sum to its
length. -/
lemma sum_toFinset_count_pairs (l : List (Int × Int)) :
    (∑ q in l.toFinset, l.count q) = l.length := by
  induction l with
  | nil => simp
  | cons a l ih =>
    rw [List.toFinset_cons]
    by_cases hmem : a ∈ l.toFinset
    · rw [Finset.insert_eq_self.mpr hmem]
      have hcnt : ∀ q ∈ l.toFinset,
          (a :: l).count q = l.count q + if a = q then 1 else 0 := by
        intro q _
        rw [List.count_cons, pair_beq_decide]
        simp
      rw [Finset.sum_congr rfl hcnt, Finset.sum_add_distrib, ih,
        Finset.sum_ite_eq l.toFinset a (fun _ => 1)]
      simp [hmem]
    · rw [Finset.sum_insert hmem]
      have hcnt : ∀ q ∈ l.toFinset, (a :: l).count q = l.count q := by
        intro q hq
        have hne : q ≠ a := fun h => hmem (h ▸ hq)
        rw [List.count_cons, pair_beq_decide]
        simp [Ne.symm hne]
      rw [Finset.sum_congr rfl hcnt, ih]
      have ha : (a :: l).count a = l.count a + 1 := by
        rw [List.count_cons, pair_beq_decide]
        simp
      have hz : l.count a = 0 := by
        rw [List.count_eq_zero]
        intro hc
        exact hmem (List.mem_toFinset.mpr hc)
      rw [ha, hz, List.length_cons]
      omega

/-- C9: the final confusion count of a pair (g, p) is the number of scored
rows carrying exactly that gold/predicted pair — correct pairs included —
and the confusion counts over the pairs that occur sum to the number of
scored examples. -/
theorem processRows_conf_counts (e : Bool) (cap : ℕ) (rows : List Row)
    (g p : Int) :
    (processRows e cap rows).conf (g, p) = (scoredPairs rows).count (g, p)
    ∧ (processRows e cap rows).total = (scoredPairs rows).length
    ∧ (∑ q in (scoredPairs rows).toFinset, (processRows e cap rows).conf q)
        = (processRows e cap rows).total := by
  have hconf : ∀ q, (processRows e cap rows).conf q = (scoredPairs rows).count q := by
    intro q
    rw [processRows, foldl_conf]
    simp [initAgg]
  have htot : (processRows e cap rows).total = (scoredPairs rows).length := by
    rw [processRows, foldl_total]
    simp [initAgg]
  refine ⟨hconf _, htot, ?_⟩
  rw [htot, Finset.sum_congr rfl (fun q _ => hconf q)]
  exact sum_toFinset_count_pairs (scoredPairs rows)

/-- Two rows with the same labels and the same slice keys produce the same
counter state; only the stored error examples can differ (they store the
row itself). -/
lemma step_counts_congr (e : Bool) (cap : ℕ) (st : Agg) (r₁ r₂ : Row)
    (hl : r₁.label = r₂.label) (hp : r₁.predicted_label = r₂.predicted_label)
    (hk : sliceKeys r₁ = sliceKeys r₂) :
    (step e cap st r₁).total = (step e cap st r₂).total
    ∧ (step e cap st r₁).correct = (step e cap st r₂).correct
    ∧ (step e cap st r₁).slice_tot = (step e cap st r₂).slice_tot
    ∧ (step e cap st r₁).slice_cor = (step e cap st r₂).slice_cor
    ∧ (step e cap st r₁).conf = (step e cap st r₂).conf := by
  cases hl2 : r₂.label with
  | none =>
    rw [step_unscored e cap st r₁ (Or.inl (hl.trans hl2)),
      step_unscored e cap st r₂ (Or.inl hl2)]
    exact ⟨rfl, rfl, rfl, rfl, rfl⟩
  | some g =>
    cases hp2 : r₂.predicted_label with
    | none =>
      rw [step_unscored e cap st r₁ (Or.inr (hp.trans hp2)),
        step_unscored e cap st r₂ (Or.inr hp2)]
      exact ⟨rfl, rfl, rfl, rfl, rfl⟩
    | some p =>
      have hl1 : r₁.label = some g := hl.trans hl2
      have hp1 : r₁.predicted_label = some p := hp.trans hp2
      simp only [step, hl1, hp1, hl2, hp2]
      rw [hk]
      refine ⟨?_, ?_, ?_, ?_, ?_⟩
      · rw [foldl_sliceUpd_total, foldl_sliceUpd_total]
      · rw [foldl_sliceUpd_correct, foldl_sliceUpd_correct]
      · rw [foldl_sliceUpd_slice_tot, foldl_sliceUpd_slice_tot]
      · rw [foldl_sliceUpd_slice_cor, foldl_sliceUpd_slice_cor]
      · rw [foldl_sliceUpd_conf, foldl_sliceUpd_conf]

lemma negKey_ne_lenKey (r : Row) : negKey r ≠ lenKey r := fun h =>
  neg_not_mem_of_mem_len (lenKey_mem r) (h ▸ negKey_mem r)

lemma negKey_ne_ovlKey (r : Row) : negKey r ≠ ovlKey r := fun h =>
  neg_not_mem_of_mem_ovl (ovlKey_mem r) (h ▸ negKey_mem r)

lemma lenKey_ne_ovlKey (r : Row) : lenKey r ≠ ovlKey r := fun h =>
  len_not_mem_of_mem_ovl (ovlKey_mem r) (h ▸ lenKey_mem r)

/-- C10: a row whose premise or hypothesis field is absent is not skipped:
the absent field behaves exactly like the empty string on every counter,
and when both labels are present the row is counted in the total, in its
confusion pair, and once in each of its three slice buckets; all the text
classifiers accept the empty text. -/
theorem step_missing_text_defaults (e : Bool) (cap : ℕ) (st : Agg) (r : Row) :
    ((step e cap st { r with premise := none }).total
        = (step e cap st { r with premise := some "" }).total
      ∧ (step e cap st { r with premise := none }).correct
        = (step e cap st { r with premise := some "" }).correct
      ∧ (step e cap st { r with premise := none }).slice_tot
        = (step e cap st { r with premise := some "" }).slice_tot
      ∧ (step e cap st { r with premise := none }).slice_cor
        = (step e cap st { r with premise := some "" }).slice_cor
      ∧ (step e cap st { r with premise := none }).conf
        = (step e cap st { r with premise := some "" }).conf)
    ∧ ((step e cap st { r with hypothesis := none }).total
        = (step e cap st { r with hypothesis := some "" }).total
      ∧ (step e cap st { r with hypothesis := none }).correct
        = (step e cap st { r with hypothesis := some "" }).correct
      ∧ (step e cap st { r with hypothesis := none }).slice_tot
        = (step e cap st { r with hypothesis := some "" }).slice_tot
      ∧ (step e cap st { r with hypothesis := none }).slice_cor
        = (step e cap st { r with hypothesis := some "" }).slice_cor
      ∧ (step e cap st { r with hypothesis := none }).conf
        = (step e cap st { r with hypothesis := some "" }).conf)
    ∧ (∀ g p : Int, r.label = some g → r.predicted_label = some p →
        (step e cap st r).total = st.total + 1
        ∧ (step e cap st r).conf (g, p) = st.conf (g, p) + 1
        ∧ (step e cap st r).slice_tot (negKey r) = st.slice_tot (negKey r) + 1
        ∧ (step e cap st r).slice_tot (lenKey r) = st.slice_tot (lenKey r) + 1
        ∧ (step e cap st r).slice_tot (ovlKey r) = st.slice_tot (ovlKey r) + 1)
    ∧ tokenize "" = [] ∧ has_negation "" = false
    ∧ length_bucket "" = "short(<=5)" ∧ jaccard_overlap "" "" = 0 := by
  refine ⟨?_, ?_, ?_, rfl, rfl, by decide, by decide⟩
  · exact step_counts_congr e cap st _ _ rfl rfl rfl
  · exact step_counts_congr e cap st _ _ rfl rfl rfl
  · intro g p hg hp
    obtain ⟨ht, _, hconf, hs⟩ := step_scored e cap st r g p hg hp
    refine ⟨ht, ?_, ?_, ?_, ?_⟩
    · rw [hconf]
      simp [bump]
    · rw [hs]
      simp [bump, negKey_ne_lenKey r, negKey_ne_ovlKey r]
    · rw [hs]
      simp [bump, (negKey_ne_lenKey r).symm, lenKey_ne_ovlKey r]
    · rw [hs]
      simp [bump, (negKey_ne_ovlKey r).symm, (lenKey_ne_ovlKey r).symm]

theorem step_missing_text_defaults_witness :
    (step false 3 initAgg ⟨none, some "A dog runs", some 2, some 0⟩).total
        = initAgg.total + 1
    ∧ (step false 3 initAgg ⟨none, some "A dog runs", some 2, some 0⟩).conf (2, 0)
        = initAgg.conf (2, 0) + 1 :=
  have h := (step_missing_text_defaults false 3 initAgg
    ⟨none, some "A dog runs", some 2, some 0⟩).2.2.1 2 0 rfl rfl
  ⟨h.1, h.2.1⟩

/-- The single row of the spec's scenario: premise "A man is not running",
hypothesis "A man is running", gold 2, predicted 0. -/
def c1row : Row :=
  ⟨some "A man is not running", some "A man is running", some 2, some 0⟩

lemma c1_ovl : overlap_bucket "A man is not running" "A man is running"
    = "high(>=0.5)" := by
  have h1 : (tokenSet "A man is not running" ∩ tokenSet "A man is running").card = 4 := by
    decide
  have h2 : (tokenSet "A man is not running" ∪ tokenSet "A man is running").card = 5 := by
    decide
  have h3 : ¬ (tokenSet "A man is not running" = ∅ ∧ tokenSet "A man is running" = ∅) := by
    decide
  have hj : jaccard_overlap "A man is not running" "A man is running" = 4 / 5 := by
    rw [jaccard_overlap, if_neg h3, h1, h2]
    norm_num
  rw [overlap_bucket, hj]
  norm_num

/-- C1, counterexample: the negation classifier runs on the hypothesis
"A man is running", which contains no negation token, so the scenario's
example is NOT classified into the negation slice: that slice's total
stays 0. -/
theorem c1_negation_slice_refuted :
    has_negation "A man is running" = false
    ∧ (processRows false 3 [c1row]).slice_tot "NEG::negation" = 0 := by
  have hneg : has_negation "A man is running" = false := by decide
  have hlen : length_bucket "A man is running" = "short(<=5)" := by decide
  refine ⟨hneg, ?_⟩
  simp [processRows, step, sliceUpd, sliceKeys, negKey, lenKey, ovlKey, initAgg,
    bump, c1row, hneg, hlen, c1_ovl]

/-- C1 as amended: the scenario's example lands in the no_negation slice
(negation is detected on the hypothesis), in the high overlap bucket, and
adds one to the confusion counter of the pair (2, 0). -/
theorem c1_scenario_amended :
    (processRows false 3 [c1row]).slice_tot "NEG::no_negation" = 1
    ∧ (processRows false 3 [c1row]).slice_tot "OVL::high(>=0.5)" = 1
    ∧ (processRows false 3 [c1row]).conf (2, 0) = 1
    ∧ (processRows false 3 [c1row]).total = 1 := by
  have hneg : has_negation "A man is running" = false := by decide
  have hlen : length_bucket "A man is running" = "short(<=5)" := by decide
  refine ⟨?_, ?_, ?_, ?_⟩ <;>
    simp [processRows, step, sliceUpd, sliceKeys, negKey, lenKey, ovlKey, initAgg,
      bump, c1row, hneg, hlen, c1_ovl]

/-- C2: on an empty input there are zero scored examples, and the
`correct/total` computation of the report is a division by zero (`none`);
the source reaches it unguarded, with no "no scored examples" message. -/
theorem empty_input_division_by_zero :
    (processRows false 3 []).total = 0
    ∧ overallAccuracy (processRows false 3 []) = none :=
  ⟨rfl, rfl⟩

theorem jaccard_overlap_props_witness :
    jaccard_overlap "a b" "b a" = jaccard_overlap "b a" "a b"
    ∧ jaccard_overlap "a b" "b a" = 1
    ∧ jaccard_overlap "x" "y" = 0 :=
  ⟨(jaccard_overlap_props "a b" "b a").1,
    (jaccard_overlap_props "a b" "b a").2.1 (by decide) (by decide),
    (jaccard_overlap_props "x" "y").2.2 (by decide)⟩

theorem overlap_bucket_tiers_witness :
    jaccard_overlap "" "" = 0 ∧ overlap_bucket "" "" = "low(<0.2)" :=
  (overlap_bucket_tiers "" "").2.2.2 (by decide) (by decide)

end AnalyzeSlices
